import Mathlib

/-!
# GhostTyper — shallow embedding of the core typing engine (src/Main.py)

This file embeds the timing-and-mistake engine of the repository in Lean 4 and
proves the specification claims about it.  Python's arbitrary-precision ints are
modelled as `ℕ`/`ℤ`, float arithmetic as exact `ℚ` arithmetic (every constant
appearing in the source — 0.95, 0.05, 0.25, 0.20, 0.40, 0.8, 1.3, 0.02 — is an
exactly representable decimal), strings as `List Char`, and every call to the
`random` module as an explicit oracle value threaded through the functions.
Signals emitted through `WorkerSignals` become an explicit event trace.
-/

namespace GhostTyper

/-- Models Python `str.isalpha` for a single character, restricted to
code points below U+0100 (ASCII letters plus the Latin-1 letters
U+00AA, U+00B5, U+00BA and U+00C0–U+00FF without the two operators
U+00D7 '×' and U+00F7 '÷').  Characters at or above U+0100 are outside the
modelled character domain. -/
def pyIsAlpha (c : Char) : Bool :=
  c.isAlpha || (0xC0 ≤ c.toNat && c.toNat ≤ 0xFF && c.toNat != 0xD7 && c.toNat != 0xF7)
    || c.toNat == 0xAA || c.toNat == 0xB5 || c.toNat == 0xBA

/-- Models Python `str.isalpha` on a whole string (`word.isalpha()`):
true iff the string is non-empty and every character is alphabetic. -/
def pyIsAlphaList (w : List Char) : Bool :=
  !w.isEmpty && w.all pyIsAlpha

/-- Models Python `str.lower` on a single character for code points below
U+0100: ASCII upper case and the Latin-1 upper-case letters U+00C0–U+00DE
(without '×') shift down by 32, everything else is unchanged. -/
def pyLower (c : Char) : Char :=
  if c.isUpper then Char.ofNat (c.toNat + 32)
  else if 0xC0 ≤ c.toNat ∧ c.toNat ≤ 0xDE ∧ c.toNat ≠ 0xD7 then Char.ofNat (c.toNat + 32)
  else c

/-- The whitespace characters recognised by Python `str.split()` with no
argument (ASCII range). -/
def pyWhitespace (c : Char) : Bool :=
  c == ' ' || c == '\t' || c == '\n' || c == '\r' || c == '\x0b' || c == '\x0c'

/-- Helper for `countWords`: scans the text remembering whether the previous
character was inside a word. -/
def countWordsAux : Bool → List Char → ℕ
  | _, [] => 0
  | inWord, c :: rest =>
    if pyWhitespace c then countWordsAux false rest
    else (if inWord then 0 else 1) + countWordsAux true rest

/-- Models `len(self.text_to_type.split())` from `_calculate_delays`: the number
of maximal whitespace-free runs of the text. -/
def countWords (l : List Char) : ℕ := countWordsAux false l

/-- The `settings` dictionary built by `MainWindow.get_settings` and consumed by
`TypingEngine`.  Numeric fields that enter float arithmetic are `ℚ`; the
percentage fields compared against `random.randint(1, 100)` are `ℕ`. -/
structure Settings where
  total_minutes : ℚ
  wpm : ℚ
  error_rate : ℚ
  correction_delay : ℕ
  thinking_chance : ℕ
  thinking_duration : ℚ × ℚ
  afk_chance : ℕ
  afk_duration : ℚ × ℚ
deriving DecidableEq

/-- The five delay fields computed once per run by
`TypingEngine._calculate_delays` and stored on the engine. -/
structure Cadence where
  char_delay : ℚ
  wpm_jitter : ℚ
  word_pause : ℚ
  sentence_pause : ℚ
  paragraph_pause : ℚ
deriving DecidableEq

/-- `total_duration_sec = self.settings['total_minutes'] * 60`. -/
def totalDurationSeconds (S : Settings) : ℚ := S.total_minutes * 60

/-- `pure_typing_time_sec = (total_chars / AVG_CHARS_PER_WORD) / base_wpm * 60`
with `AVG_CHARS_PER_WORD = 5`, before the clamping step. -/
def pureRaw (S : Settings) (totalChars : ℕ) : ℚ :=
  ((totalChars : ℚ) / 5) / S.wpm * 60

/-- The value of `pure_typing_time_sec` after the clamp
`if pure_typing_time_sec >= total_duration_sec:
   pure_typing_time_sec = total_duration_sec * 0.95`. -/
def pureTypingSeconds (S : Settings) (totalChars : ℕ) : ℚ :=
  if totalDurationSeconds S ≤ pureRaw S totalChars then totalDurationSeconds S * 0.95
  else pureRaw S totalChars

/-- `TypingEngine._calculate_delays`, lines 155–174 of src/Main.py. -/
def calculateDelays (S : Settings) (text : List Char) : Cadence :=
  let totalChars := text.length
  let total := totalDurationSeconds S
  let pureT := pureTypingSeconds S totalChars
  let pauseT := total - pureT
  let charDelay : ℚ := if 0 < totalChars then pureT / totalChars else 0.05
  let numWords := countWords text
  let numSentences := text.count '.' + text.count '!' + text.count '?'
  let numNewlines := text.count '\n'
  { char_delay := charDelay
    wpm_jitter := charDelay * 0.25
    word_pause := if 0 < numWords then pauseT * 0.20 / numWords else 0
    sentence_pause := if 0 < numSentences then pauseT * 0.40 / numSentences else 0
    paragraph_pause := if 0 < numNewlines then pauseT * 0.40 / numNewlines else 0 }

/-- Models `str.replace('\n', ' \n ')`: every newline of the source text is
padded with a space on each side. -/
def padNewlines : List Char → List Char
  | [] => []
  | c :: rest =>
    if c = '\n' then ' ' :: '\n' :: ' ' :: padNewlines rest
    else c :: padNewlines rest

/-- Models Python `str.split(' ')` (split on every single space, keeping empty
segments): `"".split(' ') = ['']`, `"a  b".split(' ') = ['a', '', 'b']`. -/
def splitSpace : List Char → List (List Char)
  | [] => [[]]
  | c :: rest =>
    if c = ' ' then [] :: splitSpace rest
    else
      match splitSpace rest with
      | t :: ts => (c :: t) :: ts
      | [] => [[c]]

/-- The token list iterated by `TypingEngine.run`:
`words = self.text_to_type.replace('\n', ' \n ').split(' ')`. -/
def tokenize (text : List Char) : List (List Char) :=
  splitSpace (padNewlines text)

/-- Joins tokens back with one space between consecutive tokens (the inverse
reading of `str.split(' ')`), used to state that the tokens are exactly the
segments of the padded text. -/
def joinSpace : List (List Char) → List Char
  | [] => []
  | [t] => t
  | t :: ts => t ++ ' ' :: joinSpace ts

/-- The four branches of `random.choice(['adjacency', 'transposition',
'omission', 'insertion'])` in `_get_mistake`. -/
inductive MistakeKind
  | adjacency | transposition | omission | insertion
deriving DecidableEq

/-- The per-token random draws consumed by one iteration of the main loop.
`corrRoll`, `thinkRoll`, `afkRoll` model `random.randint(1, 100)`,
`errRand` models `random.random()`, `thinkDur`/`afkDur` the values drawn by
`random.uniform` from the configured ranges, and the remaining fields the draws
made inside `_get_mistake` (`mIdx` the first `randint(0, len(word)-1)`,
`mIdx2` the transposition redraw `randint(0, len(word)-2)`, `adjPick` and
`vowelPick` the `random.choice` picks). -/
structure TokenRand where
  corrRoll : ℕ
  thinkRoll : ℕ
  thinkDur : ℚ
  errRand : ℚ
  mkind : MistakeKind
  mIdx : ℕ
  mIdx2 : ℕ
  adjPick : ℕ
  vowelPick : ℕ
  afkRoll : ℕ
  afkDur : ℚ
deriving DecidableEq

/-- The keyboard-adjacency dictionary `adj_map` of `_get_mistake`:
`None` for a character that is not a key of the dictionary
(`char.lower() in adj_map` false). -/
def adjMap (c : Char) : Option (List Char) :=
  match c with
  | 'q' => some ['w']
  | 'w' => some ['e', 's']
  | 'e' => some ['w', 'r']
  | 'r' => some ['e', 't']
  | 't' => some ['r', 'y']
  | 'y' => some ['t', 'u']
  | 'u' => some ['y', 'i']
  | 'i' => some ['u', 'o']
  | 'o' => some ['i', 'p']
  | 'p' => some ['o', '[']
  | 'a' => some ['s']
  | 's' => some ['a', 'd', 'w']
  | 'd' => some ['e', 'f', 's']
  | 'f' => some ['d', 'g', 'r']
  | 'g' => some ['f', 'h', 't']
  | 'h' => some ['g', 'j', 'y']
  | 'j' => some ['h', 'k', 'u']
  | 'k' => some ['j', 'l', 'i']
  | 'l' => some ['k', ';', 'o']
  | ';' => some ['l']
  | 'z' => some ['x']
  | 'x' => some ['z', 'c']
  | 'c' => some ['x', 'v', 'd']
  | 'v' => some ['c', 'f', 'b']
  | 'b' => some ['v', 'g', 'n']
  | 'n' => some ['b', 'h', 'm']
  | 'm' => some ['n', 'j', 'k']
  | _ => none

/-- Models `random.choice(l)` for a non-empty list: the oracle value `k` is
reduced modulo the length so that any oracle picks a valid element. -/
def listPick (l : List Char) (k : ℕ) : Char := l.getD (k % l.length) 'a'

/-- The vowel string `'aeiou'` used by the insertion mistake. -/
def vowels : List Char := ['a', 'e', 'i', 'o', 'u']

/-- `TypingEngine._get_mistake`, lines 176–198 of src/Main.py.  Returns the
(possibly mutated) token together with `some` original token when a mistake was
made, and `(word, none)` when no mistake occurred.  Out-of-range index oracles
are totalised with `getD`; the theorems about this function carry the in-range
hypotheses that `random.randint` guarantees in the source. -/
def getMistake (w : List Char) (r : TokenRand) : List Char × Option (List Char) :=
  if w.length < 3 ∨ pyIsAlphaList w = false then (w, none)
  else
    match r.mkind with
    | .adjacency =>
      if 1 < w.length then
        match adjMap (pyLower (w.getD r.mIdx ' ')) with
        | some ns => (w.take r.mIdx ++ [listPick ns r.adjPick] ++ w.drop (r.mIdx + 1), some w)
        | none => (w, none)
      else (w, none)
    | .transposition =>
      if 1 < w.length then
        (w.take r.mIdx2 ++ [w.getD (r.mIdx2 + 1) ' ', w.getD r.mIdx2 ' '] ++ w.drop (r.mIdx2 + 2),
          some w)
      else (w, none)
    | .omission => (w.take r.mIdx ++ w.drop (r.mIdx + 1), some w)
    | .insertion => (w.take r.mIdx ++ [listPick vowels r.vowelPick] ++ w.drop r.mIdx, some w)

/-- The fixed fast-key set `set("eatisrondlcum")` of the engine. -/
def FAST_KEYS : List Char := ['e', 'a', 't', 'i', 's', 'r', 'o', 'n', 'd', 'l', 'c', 'u', 'm']

/-- The fixed slow-key set `set("zjqxkvb")` of the engine. -/
def SLOW_KEYS : List Char := ['z', 'j', 'q', 'x', 'k', 'v', 'b']

/-- The sleep duration computed by `TypingEngine._type_char` (lines 210–217):
`off` models the draw `random.uniform(-self.wpm_jitter, self.wpm_jitter)`. -/
def typeCharSleep (charDelay off : ℚ) (c : Char) : ℚ :=
  let delay := if c ∈ FAST_KEYS then charDelay * 0.8
               else if c ∈ SLOW_KEYS then charDelay * 1.3
               else charDelay
  max 0.02 (delay + off)

/-- Modelled from the spec: §4.5 per-character timing, stated in the spec's own
wording (`baseDelay = charDelay`, scaled by 0.8 for the fast set, by 1.3 for
the slow set, jittered by the offset, floored at 0.02), to be compared with the
source-derived `typeCharSleep`. -/
def specPerCharSleep (charDelay off : ℚ) (c : Char) : ℚ :=
  let baseDelay := charDelay
  let scaled :=
    if c ∈ ['e', 'a', 't', 'i', 's', 'r', 'o', 'n', 'd', 'l', 'c', 'u', 'm'] then 0.8 * baseDelay
    else if c ∈ ['z', 'j', 'q', 'x', 'k', 'v', 'b'] then 1.3 * baseDelay
    else baseDelay
  max 0.02 (scaled + off)

/-- The special keys pressed by `_perform_correction` through
`self.keyboard.press`. -/
inductive SpecialKey
  | left | right | backspace
deriving DecidableEq

/-- One observable action of the engine towards the keystroke sink: a special
key press(+release), a typed character (`_type_char`, whose internal sleep is
modelled by `typeCharSleep`), or an explicit `self._sleep(d)`. -/
inductive Act
  | press (k : SpecialKey)
  | ch (c : Char)
  | sleepF (d : ℚ)
deriving DecidableEq

/-- `n` repetitions of `press key; release key; self._sleep(d)`, the loop shape
used three times in `_perform_correction`. -/
def pressRep (k : SpecialKey) (d : ℚ) : ℕ → List Act
  | 0 => []
  | n + 1 => Act.press k :: Act.sleepF d :: pressRep k d n

/-- `for char in text: self._type_char(char)`. -/
def typeChars (cs : List Char) : List Act := cs.map Act.ch

/-- `TypingEngine._perform_correction`, lines 219–232 of src/Main.py, as the
sequence of actions it drives into the keystroke sink.  `range` of a negative
number iterates zero times in Python, which truncated `ℕ` subtraction models
exactly. -/
def performCorrection (incorrect correct : List Char) (currentPos errorPos : ℕ) : List Act :=
  let distance := currentPos - errorPos
  pressRep .left 0.02 distance
    ++ pressRep .backspace 0.05 incorrect.length
    ++ typeChars correct
    ++ pressRep .right 0.02 (distance - correct.length)

/-- Projects an action to its keystroke (dropping the sleeps): a special key or
a typed character. -/
def keyView : Act → Option (SpecialKey ⊕ Char)
  | .press k => some (Sum.inl k)
  | .ch c => some (Sum.inr c)
  | .sleepF _ => none

/-- The keystroke sequence of an action list. -/
def keySeq (l : List Act) : List (SpecialKey ⊕ Char) := l.filterMap keyView

/-- One entry of `self.uncorrected_errors`:
`{'incorrect': ..., 'correct': ..., 'pos': ...}`. -/
structure PendingError where
  incorrect : List Char
  correct : List Char
  pos : ℕ
deriving DecidableEq

/-- The run-scoped mutable state of the main loop: `current_pos` and the
pending-error queue `self.uncorrected_errors`. -/
structure EngineState where
  pos : ℕ
  queue : List PendingError
deriving DecidableEq

/-- Tags for the distinct `status_update` strings emitted by `TypingEngine.run`
and its helpers; `fixing` carries the incorrect text interpolated into
"Going back to fix '...'". -/
inductive StatusMsg
  | starting
  | started
  | fixing (incorrect : List Char)
  | fixedNote
  | thinking
  | afk
  | finishedMsg
  | stoppedMsg
deriving DecidableEq

/-- One observer-visible event of a run: a status message, an integer progress
report, or a sink action. -/
inductive Event
  | status (m : StatusMsg)
  | progress (p : ℕ)
  | act (a : Act)
deriving DecidableEq

/-- `true` exactly on progress events. -/
def isProgress : Event → Bool
  | .progress _ => true
  | _ => false

/-- The result of one iteration of the main loop body: the emitted events, the
pending error popped by the delayed-correction check (if any), the pending
error appended by the mistake branch (if any), and the updated state. -/
structure StepOut where
  events : List Event
  fixed : Option PendingError
  pushed : Option PendingError
  state : EngineState
deriving DecidableEq

/-- `word.endswith(('.', '!', '?'))`. -/
def endsPunct (w : List Char) : Bool :=
  match w.getLast? with
  | some c => c == '.' || c == '!' || c == '?'
  | none => false

/-- The delayed-correction check at the top of the loop body (lines 248–253):
`if self.uncorrected_errors and random.randint(1, 100) <= correction_delay:
pop the oldest pending error and perform the correction`.  Returns the emitted
events, the popped entry (if any) and the queue after the pop. -/
def corrStep (S : Settings) (r : TokenRand) (st : EngineState) :
    List Event × Option PendingError × List PendingError :=
  match st.queue with
  | e :: rest =>
    if r.corrRoll ≤ S.correction_delay then
      (Event.status (.fixing e.incorrect) ::
        ((performCorrection e.incorrect e.correct st.pos e.pos).map Event.act
          ++ [Event.status .fixedNote]), some e, rest)
    else ([], none, st.queue)
  | [] => ([], none, st.queue)

/-- The thinking-pause check (lines 256–259). -/
def thinkStep (S : Settings) (r : TokenRand) : List Event :=
  if r.thinkRoll ≤ S.thinking_chance then
    [Event.status .thinking, Event.act (Act.sleepF r.thinkDur)]
  else []

/-- Typing the token (lines 262–271): with the mistake guard
`word.isalpha() and random.random() < error_rate / 100`, either emits the
incorrect text and records a `PendingError` at the pre-token offset, or emits
the token as-is. -/
def typeStep (S : Settings) (r : TokenRand) (w : List Char) (st : EngineState) :
    List Event × Option PendingError :=
  if pyIsAlphaList w = true ∧ r.errRand < S.error_rate / 100 then
    match getMistake w r with
    | (incorrect, some correct) =>
      (incorrect.map (fun c => Event.act (Act.ch c)),
        some { incorrect := incorrect, correct := correct, pos := st.pos })
    | (_, none) => (w.map (fun c => Event.act (Act.ch c)), none)
  else (w.map (fun c => Event.act (Act.ch c)), none)

/-- The inter-token pause chosen by token shape (lines 277–287): AFK break or
paragraph pause at a newline token, sentence pause after terminal punctuation,
otherwise a typed space followed by the word pause. -/
def pauseStep (S : Settings) (C : Cadence) (r : TokenRand) (w : List Char) : List Event :=
  if w = ['\n'] then
    if r.afkRoll ≤ S.afk_chance then [Event.status .afk, Event.act (Act.sleepF r.afkDur)]
    else [Event.act (Act.sleepF C.paragraph_pause)]
  else if endsPunct w then [Event.act (Act.sleepF C.sentence_pause)]
  else [Event.act (Act.ch ' '), Event.act (Act.sleepF C.word_pause)]

/-- The body of the `for i, word in enumerate(words)` loop of
`TypingEngine.run` (lines 246–287 of src/Main.py), for one token `w` at index
`i` of `n` tokens, driven by the per-token oracle `r`:
1. delayed-correction check (`corrStep`),
2. thinking-pause check (`thinkStep`),
3. the mistake decision and the emission of the token (`typeStep`),
4. `current_pos += len(word) + 1`,
5. `progress.emit(int(i / len(words) * 100))` (exact arithmetic: `i * 100 / n`
   with floor division),
6. the inter-token pause (`pauseStep`). -/
def stepToken (S : Settings) (C : Cadence) (r : TokenRand) (i n : ℕ) (w : List Char)
    (st : EngineState) : StepOut :=
  let corr := corrStep S r st
  let typing := typeStep S r w st
  { events := corr.1 ++ thinkStep S r ++ typing.1
      ++ [Event.progress (i * 100 / n)] ++ pauseStep S C r w
    fixed := corr.2.1
    pushed := typing.2
    state := { pos := st.pos + w.length + 1, queue := corr.2.2 ++ typing.2.toList } }

/-- The observable outcome of the main loop: the emitted events, the pending
errors popped (in order), the pending errors appended (in order), the final
state, and whether the loop was left through the stop-check `break`. -/
structure RunOut where
  events : List Event
  pops : List PendingError
  pushes : List PendingError
  state : EngineState
  broke : Bool
deriving DecidableEq

/-- The main loop of `TypingEngine.run` from token index `i` on: at each
iteration boundary the stop flag is read as `flag i`; when it is set the loop
breaks before beginning the token. -/
def runLoop (S : Settings) (C : Cadence) (flag : ℕ → Bool) (R : ℕ → TokenRand) (n : ℕ) :
    List (List Char) → ℕ → EngineState → RunOut
  | [], _, st => { events := [], pops := [], pushes := [], state := st, broke := false }
  | w :: rest, i, st =>
    if flag i then { events := [], pops := [], pushes := [], state := st, broke := true }
    else
      let s := stepToken S C (R i) i n w st
      let out := runLoop S C flag R n rest (i + 1) s.state
      { events := s.events ++ out.events
        pops := s.fixed.toList ++ out.pops
        pushes := s.pushed.toList ++ out.pushes
        state := out.state
        broke := out.broke }

/-- `TypingEngine.run`, lines 234–293 of src/Main.py: computes the cadence,
emits the lead-in ("Starting in 5 seconds...", a 5-second sleep, the started
message), runs the main loop from offset 0 with an empty pending-error queue,
and finally — reading the stop flag once more after the loop (`flag n`, or the
already-observed break) — emits either the terminal stopped status, or the
terminal finished status followed by the 100% progress report. -/
def engineRun (S : Settings) (text : List Char) (flag : ℕ → Bool) (R : ℕ → TokenRand) : RunOut :=
  let C := calculateDelays S text
  let words := tokenize text
  let n := words.length
  let out := runLoop S C flag R n words 0 { pos := 0, queue := [] }
  let terminal : List Event :=
    if out.broke || flag n then [Event.status .stoppedMsg]
    else [Event.status .finishedMsg, Event.progress 100]
  { out with
    events :=
      [Event.status .starting, Event.act (Act.sleepF 5), Event.status .started]
        ++ out.events ++ terminal }

/-- What the GUI observer can receive from a `TypingWorker`: an event forwarded
from the engine's signals, the `error` signal carrying `str(e)`, or the
terminal `finished` signal. -/
inductive WorkerEvent
  | engine (e : Event)
  | error (msg : String)
  | finished
deriving DecidableEq

/-- `TypingWorker.run`, lines 329–336 of src/Main.py
(`try: self.engine.run() except Exception as e: error.emit(str(e))
finally: finished.emit()`).  `emitted` is whatever the engine had emitted
before returning or raising; `outcome = none` models a normal return and
`outcome = some msg` models an exception whose `str` is `msg`. -/
def typingWorkerRun (emitted : List Event) (outcome : Option String) : List WorkerEvent :=
  emitted.map WorkerEvent.engine ++
    match outcome with
    | none => [WorkerEvent.finished]
    | some msg => [WorkerEvent.error msg, WorkerEvent.finished]

/-! ### Concrete fixtures used by witnesses and counterexamples -/

/-- The text of the spec's Scenario A/B: 11 characters, 2 words, no sentence
terminators, no newlines. -/
def helloWorld : List Char := ['h', 'e', 'l', 'l', 'o', ' ', 'w', 'o', 'r', 'l', 'd']

/-- Scenario A settings: `wpm = 60`, `totalMinutes = 1`. -/
def settingsA : Settings :=
  { total_minutes := 1, wpm := 60, error_rate := 0, correction_delay := 0,
    thinking_chance := 0, thinking_duration := (0, 0), afk_chance := 0, afk_duration := (0, 0) }

/-- Scenario B settings: `totalMinutes` reduced so that
`totalDurationSeconds = 5`. -/
def settingsB : Settings :=
  { total_minutes := 1 / 12, wpm := 60, error_rate := 0, correction_delay := 0,
    thinking_chance := 0, thinking_duration := (0, 0), afk_chance := 0, afk_duration := (0, 0) }

/-- Degenerate settings with a zero target duration (positive `wpm`). -/
def settingsZeroMin : Settings :=
  { total_minutes := 0, wpm := 60, error_rate := 0, correction_delay := 0,
    thinking_chance := 0, thinking_duration := (0, 0), afk_chance := 0, afk_duration := (0, 0) }

/-- Settings that always attempt a delayed correction
(`correction_delay = 100`) and never err. -/
def settingsCorr : Settings :=
  { total_minutes := 1, wpm := 60, error_rate := 0, correction_delay := 100,
    thinking_chance := 0, thinking_duration := (0, 0), afk_chance := 0, afk_duration := (0, 0) }

/-- A fixed concrete per-token oracle. -/
def oracleA : TokenRand :=
  { corrRoll := 1, thinkRoll := 1, thinkDur := 0, errRand := 1, mkind := .omission,
    mIdx := 0, mIdx2 := 0, adjPick := 0, vowelPick := 0, afkRoll := 1, afkDur := 0 }

/-- A concrete adjacency-kind oracle. -/
def oracleAdj : TokenRand :=
  { corrRoll := 1, thinkRoll := 1, thinkDur := 0, errRand := 1, mkind := .adjacency,
    mIdx := 0, mIdx2 := 0, adjPick := 0, vowelPick := 0, afkRoll := 1, afkDur := 0 }

/-- A concrete insertion-kind oracle. -/
def oracleIns : TokenRand :=
  { corrRoll := 1, thinkRoll := 1, thinkDur := 0, errRand := 1, mkind := .insertion,
    mIdx := 1, mIdx2 := 0, adjPick := 0, vowelPick := 0, afkRoll := 1, afkDur := 0 }

/-- A cadence with all-zero delays, used where the delay values are
irrelevant. -/
def cadenceZero : Cadence :=
  { char_delay := 0, wpm_jitter := 0, word_pause := 0, sentence_pause := 0, paragraph_pause := 0 }

/-- A pending error `'x'` → `'y'` recorded at offset 0. -/
def pendingX : PendingError := { incorrect := ['x'], correct := ['y'], pos := 0 }

/-- A pending error `'p'` → `'q'` recorded at offset 2. -/
def pendingP : PendingError := { incorrect := ['p'], correct := ['q'], pos := 2 }

/-! ## Helper lemmas -/

lemma charDelay_pos_len (S : Settings) (text : List Char) (h : 0 < text.length) :
    (calculateDelays S text).char_delay = pureTypingSeconds S text.length / text.length := by
  simp [calculateDelays, h]

lemma charDelay_zero_len (S : Settings) (text : List Char) (h : text.length = 0) :
    (calculateDelays S text).char_delay = 0.05 := by
  simp [calculateDelays, h]

lemma pureRaw_pos (S : Settings) (cc : ℕ) (hw : 0 < S.wpm) (hc : 0 < cc) :
    0 < pureRaw S cc := by
  have hcc : (0 : ℚ) < (cc : ℚ) := by exact_mod_cast hc
  have h5 : (0 : ℚ) < 5 := by norm_num
  have h60 : (0 : ℚ) < 60 := by norm_num
  exact mul_pos (div_pos (div_pos hcc h5) hw) h60

/-! ## Claim C1 -/

/-- **C1** (amended: the positivity consequence additionally needs
`totalMinutes > 0`; with `totalMinutes = 0` the clamp forces
`pureTypingSeconds = 0` and hence `charDelay = 0`).
The cadence calculation satisfies the spec's algorithm: `pureTypingSeconds`
is `(charCount/5)/wpm*60`, clamped to `totalDurationSeconds * 0.95` whenever it
is `>= totalDurationSeconds`; `charDelay = pureTypingSeconds / charCount` with
fallback `0.05` when `charCount = 0`; and for all Settings with `wpm > 0`,
`charCount > 0` and `totalMinutes > 0`, `charDelay > 0` and
`pureTypingSeconds ≤ totalDurationSeconds`. -/
theorem cadence_conformance_and_positivity (S : Settings) (text : List Char) :
    (totalDurationSeconds S ≤ pureRaw S text.length →
      pureTypingSeconds S text.length = totalDurationSeconds S * 0.95) ∧
    (pureRaw S text.length < totalDurationSeconds S →
      pureTypingSeconds S text.length = pureRaw S text.length) ∧
    (text.length = 0 → (calculateDelays S text).char_delay = 0.05) ∧
    (0 < text.length →
      (calculateDelays S text).char_delay = pureTypingSeconds S text.length / text.length) ∧
    (0 < S.wpm → 0 < text.length → 0 < S.total_minutes →
      0 < (calculateDelays S text).char_delay ∧
      pureTypingSeconds S text.length ≤ totalDurationSeconds S) := by
  refine ⟨?_, ?_, ?_, ?_, ?_⟩
  · intro h
    unfold pureTypingSeconds
    rw [if_pos h]
  · intro h
    unfold pureTypingSeconds
    rw [if_neg (not_le.mpr h)]
  · intro h
    exact charDelay_zero_len S text h
  · intro h
    exact charDelay_pos_len S text h
  · intro hw hc hm
    have htot : 0 < totalDurationSeconds S := by
      unfold totalDurationSeconds
      exact mul_pos hm (by norm_num)
    have hlen : (0 : ℚ) < (text.length : ℚ) := by exact_mod_cast hc
    have hpure : 0 < pureTypingSeconds S text.length := by
      unfold pureTypingSeconds
      split
      · exact mul_pos htot (by norm_num)
      · exact pureRaw_pos S text.length hw hc
    constructor
    · rw [charDelay_pos_len S text hc]
      exact div_pos hpure hlen
    · unfold pureTypingSeconds
      split
      · nlinarith [htot]
      · next h => exact le_of_lt (not_le.mp (by intro hcon; exact h hcon))

/-- The claim C1 as stated is false: with `totalMinutes = 0` (and `wpm = 60 > 0`,
`charCount = 11 > 0`) the computed `charDelay` is `0`, not positive. -/
theorem cadence_positivity_fails_at_zero_minutes :
    0 < settingsZeroMin.wpm ∧ 0 < helloWorld.length ∧
      ¬ 0 < (calculateDelays settingsZeroMin helloWorld).char_delay := by
  refine ⟨by norm_num [settingsZeroMin], by decide, ?_⟩
  have hl : helloWorld.length = 11 := by decide
  rw [charDelay_pos_len settingsZeroMin helloWorld (by decide), hl]
  norm_num [pureTypingSeconds, pureRaw, totalDurationSeconds, settingsZeroMin]

/-- Witness for C1 at Scenario A's settings and text. -/
theorem cadence_conformance_and_positivity_witness :
    0 < settingsA.wpm ∧ 0 < helloWorld.length ∧ 0 < settingsA.total_minutes ∧
      (0 < (calculateDelays settingsA helloWorld).char_delay ∧
        pureTypingSeconds settingsA helloWorld.length ≤ totalDurationSeconds settingsA) :=
  ⟨by norm_num [settingsA], by decide, by norm_num [settingsA],
    (cadence_conformance_and_positivity settingsA helloWorld).2.2.2.2
      (by norm_num [settingsA]) (by decide) (by norm_num [settingsA])⟩

/-! ## Claim C7 -/

/-- The claim C7 as stated is false on the code: for Scenario A the source
formula gives `pureTypingSeconds = (11/5)/60*60 = 11/5 = 2.2`, not `11`, and
`charDelay = (11/5)/11 = 0.2`, not `1.0`. -/
theorem scenario_a_values_fail :
    pureTypingSeconds settingsA helloWorld.length = 11 / 5 ∧ ((11 : ℚ) / 5) ≠ 11 ∧
      (calculateDelays settingsA helloWorld).char_delay = 1 / 5 ∧ ((1 : ℚ) / 5) ≠ 1 := by
  have hl : helloWorld.length = 11 := by decide
  have hp : pureTypingSeconds settingsA helloWorld.length = 11 / 5 := by
    rw [hl]
    norm_num [pureTypingSeconds, pureRaw, totalDurationSeconds, settingsA]
  refine ⟨hp, by norm_num, ?_, by norm_num⟩
  rw [charDelay_pos_len settingsA helloWorld (by decide), hp, hl]
  norm_num

/-- **C7** (amended: the spec's scenario arithmetic is corrected to what the
source formula yields).  For Settings{wpm=60, totalMinutes=1} and the text
"hello world" (11 characters, 2 words): `pureTypingSeconds = (11/5)/60*60 =
2.2` with no clamping (2.2 < 60), `charDelay = 0.2`, and
`wordPause = 0.20*(60 - 2.2)/2 = 5.78`; with `totalDurationSeconds = 5`
instead, `pureTypingSeconds = 2.2` is still below the budget, so there is
again no clamping and `charDelay = 0.2`. -/
theorem scenario_a_b_corrected_values :
    pureTypingSeconds settingsA helloWorld.length = 2.2 ∧
    pureRaw settingsA helloWorld.length < totalDurationSeconds settingsA ∧
    (calculateDelays settingsA helloWorld).char_delay = 0.2 ∧
    (calculateDelays settingsA helloWorld).word_pause = 5.78 ∧
    totalDurationSeconds settingsB = 5 ∧
    pureRaw settingsB helloWorld.length < totalDurationSeconds settingsB ∧
    pureTypingSeconds settingsB helloWorld.length = 2.2 ∧
    (calculateDelays settingsB helloWorld).char_delay = 0.2 := by
  have hl : helloWorld.length = 11 := by decide
  have hw : countWords helloWorld = 2 := by decide
  have hpA : pureTypingSeconds settingsA helloWorld.length = 2.2 := by
    rw [hl]
    norm_num [pureTypingSeconds, pureRaw, totalDurationSeconds, settingsA]
  have hpB : pureTypingSeconds settingsB helloWorld.length = 2.2 := by
    rw [hl]
    norm_num [pureTypingSeconds, pureRaw, totalDurationSeconds, settingsB]
  refine ⟨hpA, ?_, ?_, ?_, ?_, ?_, hpB, ?_⟩
  · rw [hl]
    norm_num [pureRaw, totalDurationSeconds, settingsA]
  · rw [charDelay_pos_len settingsA helloWorld (by decide), hpA, hl]
    norm_num
  · simp only [calculateDelays, hl, hw, hpA]
    norm_num [pureTypingSeconds, pureRaw, totalDurationSeconds, settingsA]
  · norm_num [totalDurationSeconds, settingsB]
  · rw [hl]
    norm_num [pureRaw, totalDurationSeconds, settingsB]
  · rw [charDelay_pos_len settingsB helloWorld (by decide), hpB, hl]
    norm_num

/-! ## Claim C4 -/

/-- **C4**: the per-character sleep equals `charDelay` scaled by 0.8 on the
fast set, by 1.3 on the slow set, otherwise unscaled, plus the uniform offset
drawn from `[-jitter, jitter]`, floored at 0.02 — and in particular it is never
below 0.02. -/
theorem per_char_sleep_conforms (charDelay jitter off : ℚ) (c : Char)
    (h1 : -jitter ≤ off) (h2 : off ≤ jitter) :
    typeCharSleep charDelay off c = specPerCharSleep charDelay off c ∧
      0.02 ≤ typeCharSleep charDelay off c := by
  constructor
  · unfold typeCharSleep specPerCharSleep FAST_KEYS SLOW_KEYS
    split_ifs <;> ring_nf
  · exact le_max_left _ _

/-- Witness for C4 at `charDelay = 1`, `jitter = 1/4`, `off = -1/4`, `c = 'z'`. -/
theorem per_char_sleep_conforms_witness :
    -(1 / 4 : ℚ) ≤ -(1 / 4 : ℚ) ∧ -(1 / 4 : ℚ) ≤ (1 / 4 : ℚ) ∧
      (typeCharSleep 1 (-(1 / 4)) 'z' = specPerCharSleep 1 (-(1 / 4)) 'z' ∧
        0.02 ≤ typeCharSleep 1 (-(1 / 4)) 'z') :=
  ⟨le_refl _, by norm_num,
    per_char_sleep_conforms 1 (1 / 4) (-(1 / 4)) 'z' (by norm_num) (by norm_num)⟩

/-! ## Claim C5 -/

/-- **C5**: mistake generation returns the token unchanged with no companion
correct text (a) whenever the token is shorter than 3 characters or not purely
alphabetic (stated over the modelled character domain, code points below
U+0100, where `pyIsAlpha` agrees with Python `str.isalpha`), and (b) whenever
the adjacency kind is chosen but the selected character has no mapped
neighbor. -/
theorem get_mistake_no_mistake_cases :
    (∀ (w : List Char) (r : TokenRand), (∀ c ∈ w, c.toNat < 256) →
      w.length < 3 ∨ pyIsAlphaList w = false →
      getMistake w r = (w, none)) ∧
    (∀ (w : List Char) (r : TokenRand), pyIsAlphaList w = true → 3 ≤ w.length →
      r.mkind = MistakeKind.adjacency → r.mIdx < w.length →
      adjMap (pyLower (w.getD r.mIdx ' ')) = none →
      getMistake w r = (w, none)) := by
  constructor
  · intro w r _ h
    unfold getMistake
    rw [if_pos h]
  · intro w r ha hl hk hi hadj
    unfold getMistake
    rw [if_neg (by simp [ha]; omega), hk]
    have h1 : 1 < w.length := by omega
    rw [if_pos h1, hadj]

/-- Witness for C5: part (a) on the short token "ab", part (b) on the
alphabetic token "ééé" whose characters are not keys of the adjacency map. -/
theorem get_mistake_no_mistake_cases_witness :
    getMistake ['a', 'b'] oracleA = (['a', 'b'], none) ∧
      (pyIsAlphaList ['é', 'é', 'é'] = true ∧
        adjMap (pyLower (['é', 'é', 'é'].getD 0 ' ')) = none ∧
        getMistake ['é', 'é', 'é'] oracleAdj = (['é', 'é', 'é'], none)) :=
  ⟨get_mistake_no_mistake_cases.1 ['a', 'b'] oracleA (by decide) (Or.inl (by decide)),
    by decide, by decide,
    get_mistake_no_mistake_cases.2 ['é', 'é', 'é'] oracleAdj (by decide) (by decide)
      (by decide) (by decide) (by decide)⟩

/-! ## Claim C6 -/

lemma keySeq_append (l₁ l₂ : List Act) : keySeq (l₁ ++ l₂) = keySeq l₁ ++ keySeq l₂ :=
  List.filterMap_append l₁ l₂ keyView

lemma keySeq_pressRep (k : SpecialKey) (d : ℚ) (n : ℕ) :
    keySeq (pressRep k d n) = List.replicate n (Sum.inl k) := by
  induction n with
  | zero => rfl
  | succ n ih =>
    simp only [pressRep, keySeq, List.filterMap_cons, keyView, List.replicate_succ]
    simpa [keySeq] using ih

lemma keySeq_typeChars (cs : List Char) :
    keySeq (typeChars cs) = cs.map Sum.inr := by
  induction cs with
  | nil => rfl
  | cons c rest ih =>
    simp only [typeChars, keySeq, List.map_cons, List.filterMap_cons, keyView]
    simpa [keySeq, typeChars] using ih

/-- **C6**: the correction maneuver presses `currentOffset - errorOffset` left
arrows, then `len(incorrect)` backspaces, then types the characters of the
correct text, then `distance - len(correct)` right arrows — in exactly that
order — and emits only sink actions (no pending-error-queue operation and no
progress report occurs among its events). -/
theorem correction_key_sequence (incorrect correct : List Char) (currentPos errorPos : ℕ)
    (h : errorPos ≤ currentPos) :
    keySeq (performCorrection incorrect correct currentPos errorPos) =
      List.replicate (currentPos - errorPos) (Sum.inl SpecialKey.left)
        ++ List.replicate incorrect.length (Sum.inl SpecialKey.backspace)
        ++ correct.map Sum.inr
        ++ List.replicate (currentPos - errorPos - correct.length) (Sum.inl SpecialKey.right) ∧
    (∀ e ∈ (performCorrection incorrect correct currentPos errorPos).map Event.act,
      ∃ a, e = Event.act a) := by
  constructor
  · unfold performCorrection
    rw [keySeq_append, keySeq_append, keySeq_append,
      keySeq_pressRep, keySeq_pressRep, keySeq_pressRep, keySeq_typeChars]
  · intro e he
    rcases List.mem_map.mp he with ⟨a, _, rfl⟩
    exact ⟨a, rfl⟩

/-- Witness for C6: the spec's Scenario D correction ("eth" → "teh") at cursor
offset 10 with the error recorded at offset 4. -/
theorem correction_key_sequence_witness :
    (4 : ℕ) ≤ 10 ∧
      keySeq (performCorrection ['e', 't', 'h'] ['t', 'e', 'h'] 10 4) =
        List.replicate (10 - 4) (Sum.inl SpecialKey.left)
          ++ List.replicate (['e', 't', 'h'] : List Char).length (Sum.inl SpecialKey.backspace)
          ++ (['t', 'e', 'h'] : List Char).map Sum.inr
          ++ List.replicate (10 - 4 - (['t', 'e', 'h'] : List Char).length)
              (Sum.inl SpecialKey.right) :=
  ⟨by norm_num, (correction_key_sequence ['e', 't', 'h'] ['t', 'e', 'h'] 10 4 (by norm_num)).1⟩

/-! ## Claim C8 -/

lemma splitSpace_ne_nil (l : List Char) : splitSpace l ≠ [] := by
  cases l with
  | nil => simp [splitSpace]
  | cons c rest =>
    unfold splitSpace
    split
    · simp
    · cases h : splitSpace rest <;> simp

lemma space_not_mem_splitSpace (l : List Char) :
    ∀ t ∈ splitSpace l, ' ' ∉ t := by
  induction l with
  | nil =>
    intro t ht
    simp [splitSpace] at ht
    simp [ht]
  | cons c rest ih =>
    intro t ht
    unfold splitSpace at ht
    by_cases hc : c = ' '
    · rw [if_pos hc] at ht
      rcases List.mem_cons.mp ht with h | h
      · simp [h]
      · exact ih t h
    · rw [if_neg hc] at ht
      rcases hsp : splitSpace rest with _ | ⟨t0, ts⟩
      · exact absurd hsp (splitSpace_ne_nil rest)
      · rw [hsp] at ht
        rcases List.mem_cons.mp ht with h | h
        · subst h
          intro hmem
          rcases List.mem_cons.mp hmem with h | h
          · exact hc h.symm
          · exact ih t0 (hsp ▸ List.mem_cons_self t0 ts) h
        · exact ih t (hsp ▸ List.mem_cons_of_mem t0 h)

lemma joinSpace_cons_cons (t : List Char) (u : List Char) (ts : List (List Char)) :
    joinSpace (t :: u :: ts) = t ++ ' ' :: joinSpace (u :: ts) := by
  rfl

lemma joinSpace_splitSpace (l : List Char) : joinSpace (splitSpace l) = l := by
  induction l with
  | nil => rfl
  | cons c rest ih =>
    unfold splitSpace
    by_cases hc : c = ' '
    · rw [if_pos hc]
      rcases hsp : splitSpace rest with _ | ⟨t0, ts⟩
      · exact absurd hsp (splitSpace_ne_nil rest)
      · rw [joinSpace_cons_cons, ← hsp, ih, hc]
        rfl
    · rw [if_neg hc]
      rcases hsp : splitSpace rest with _ | ⟨t0, ts⟩
      · exact absurd hsp (splitSpace_ne_nil rest)
      · have : joinSpace ((c :: t0) :: ts) = c :: joinSpace (t0 :: ts) := by
          cases ts <;> rfl
        rw [this, ← hsp, ih]

lemma newline_tokens_of_padded (text : List Char) :
    (∀ t ∈ splitSpace (padNewlines text), '\n' ∈ t → t = ['\n']) ∧
    (∀ t0 ts, splitSpace (padNewlines text) = t0 :: ts → '\n' ∉ t0) := by
  induction text with
  | nil =>
    constructor
    · intro t ht
      simp [padNewlines, splitSpace] at ht
      simp [ht]
    · intro t0 ts h
      simp [padNewlines, splitSpace] at h
      simp [h.1]
  | cons c rest ih =>
    by_cases hnl : c = '\n'
    · have hshape : splitSpace (padNewlines (c :: rest)) =
          [] :: ['\n'] :: splitSpace (padNewlines rest) := by
        rcases hsp : splitSpace (padNewlines rest) with _ | ⟨t0, ts⟩
        · exact absurd hsp (splitSpace_ne_nil _)
        · simp only [padNewlines, if_pos hnl]
          unfold splitSpace
          rw [if_pos rfl]
          unfold splitSpace
          rw [if_neg (by decide)]
          unfold splitSpace
          rw [if_pos rfl, hsp]
      constructor
      · intro t ht
        rw [hshape] at ht
        rcases List.mem_cons.mp ht with h | h
        · subst h; intro hmem; exact absurd hmem (List.not_mem_nil _)
        · rcases List.mem_cons.mp h with h | h
          · intro _; exact h
          · exact ih.1 t h
      · intro t0 ts h
        rw [hshape] at h
        have ht0 : t0 = [] := ((List.cons.inj h).1).symm
        simp [ht0]
    · by_cases hsc : c = ' '
      · have hshape : splitSpace (padNewlines (c :: rest)) =
            [] :: splitSpace (padNewlines rest) := by
          rw [show padNewlines (c :: rest) = c :: padNewlines rest from by
              simp [padNewlines, hnl],
            hsc]
          simp [splitSpace]
        constructor
        · intro t ht
          rw [hshape] at ht
          rcases List.mem_cons.mp ht with h | h
          · subst h; intro hmem; exact absurd hmem (List.not_mem_nil _)
          · exact ih.1 t h
        · intro t0 ts h
          rw [hshape] at h
          have ht0 : t0 = [] := ((List.cons.inj h).1).symm
          simp [ht0]
      · rcases hsp : splitSpace (padNewlines rest) with _ | ⟨t0, ts⟩
        · exact absurd hsp (splitSpace_ne_nil _)
        · have hshape : splitSpace (padNewlines (c :: rest)) = (c :: t0) :: ts := by
            simp only [padNewlines, if_neg hnl]
            unfold splitSpace
            rw [if_neg hsc, hsp]
          have hhead : '\n' ∉ c :: t0 := by
            intro hmem
            rcases List.mem_cons.mp hmem with h | h
            · exact hnl h.symm
            · exact ih.2 t0 ts hsp h
          constructor
          · intro t ht
            rw [hshape] at ht
            rcases List.mem_cons.mp ht with h | h
            · subst h; intro hmem; exact absurd hmem hhead
            · exact ih.1 t (hsp ▸ List.mem_cons_of_mem t0 h)
          · intro u us h
            rw [hshape] at h
            have hu : u = c :: t0 := ((List.cons.inj h).1).symm
            rw [hu]
            exact hhead

/-- The claim C8 as stated is false on the code: consecutive spaces produce an
empty token, and a tab stays inside a token (Python splits on every single
`' '` after padding newlines, not on general whitespace). -/
theorem tokenizer_claim_fails :
    [] ∈ tokenize ['a', ' ', ' ', 'b'] ∧
      ['a', '\t', 'b'] ∈ tokenize ['a', '\t', 'b'] ∧
      ('\t' ∈ (['a', '\t', 'b'] : List Char)) := by
  refine ⟨by decide, by decide, by decide⟩

/-- **C8** (amended: the loop iterates over the segments of the newline-padded
text between single space characters).  For every input text the token list is
`splitSpace (padNewlines text)`: no token contains a space character, every
token that contains a newline is exactly the `'\n'` sentinel token, and the
tokens joined by single spaces reconstruct the newline-padded text (so every
maximal space-free segment of the padded text appears, in order, as a token).
Unlike the original claim, consecutive whitespace yields empty tokens and
non-space whitespace such as tabs stays inside tokens. -/
theorem tokenizer_characterization (text : List Char) :
    tokenize text = splitSpace (padNewlines text) ∧
    (∀ t ∈ tokenize text, ' ' ∉ t) ∧
    (∀ t ∈ tokenize text, '\n' ∈ t → t = ['\n']) ∧
    joinSpace (tokenize text) = padNewlines text :=
  ⟨rfl, space_not_mem_splitSpace (padNewlines text),
    (newline_tokens_of_padded text).1, joinSpace_splitSpace (padNewlines text)⟩

/-- Witness for C8 on the text "a\nb": the token `['a']` is a token of the
tokenization and contains no space. -/
theorem tokenizer_characterization_witness :
    ['a'] ∈ tokenize ['a', '\n', 'b'] ∧ ' ' ∉ (['a'] : List Char) :=
  ⟨by decide, (tokenizer_characterization ['a', '\n', 'b']).2.1 ['a'] (by decide)⟩

/-! ## Claim C9 -/

lemma count_finished_map_engine (evs : List Event) :
    (evs.map WorkerEvent.engine).count WorkerEvent.finished = 0 := by
  rw [List.count_eq_zero]
  intro h
  rcases List.mem_map.mp h with ⟨e, -, he⟩
  exact WorkerEvent.noConfusion he

lemma error_not_mem_map_engine (evs : List Event) (m : String) :
    WorkerEvent.error m ∉ evs.map WorkerEvent.engine := by
  intro h
  rcases List.mem_map.mp h with ⟨e, -, he⟩
  exact WorkerEvent.noConfusion he

/-- **C9**: `TypingWorker.run` swallows every engine exception (the model is a
total function of the outcome — nothing propagates): on an exception the
observer receives the error event carrying the failure message followed by the
terminal finished event; on every path (return or exception) exactly one
finished event is emitted and it is the last event. -/
theorem worker_error_handling (emitted : List Event) (outcome : Option String) :
    (typingWorkerRun emitted outcome).count WorkerEvent.finished = 1 ∧
    (∃ pre, typingWorkerRun emitted outcome = pre ++ [WorkerEvent.finished]) ∧
    (∀ msg, outcome = some msg →
      typingWorkerRun emitted outcome =
        emitted.map WorkerEvent.engine ++ [WorkerEvent.error msg, WorkerEvent.finished]) ∧
    (outcome = none →
      ∀ m, WorkerEvent.error m ∉ typingWorkerRun emitted outcome) := by
  cases outcome with
  | none =>
    refine ⟨?_, ⟨emitted.map WorkerEvent.engine, rfl⟩, ?_, ?_⟩
    · simp [typingWorkerRun, List.count_append, count_finished_map_engine]
    · intro msg h
      exact Option.noConfusion h
    · intro _ m hmem
      rcases List.mem_append.mp hmem with h | h
      · exact error_not_mem_map_engine emitted m h
      · simp at h
  | some msg =>
    refine ⟨?_, ⟨emitted.map WorkerEvent.engine ++ [WorkerEvent.error msg], by
      simp [typingWorkerRun]⟩, ?_, ?_⟩
    · simp [typingWorkerRun, List.count_append, count_finished_map_engine]
    · intro msg' h
      rw [Option.some.inj h]
      rfl
    · intro h
      exact Option.noConfusion h

/-- Witness for C9: an engine failure with message "boom" and no prior events
produces exactly the error event followed by the finished event. -/
theorem worker_error_handling_witness :
    typingWorkerRun [] (some "boom") =
      ([] : List Event).map WorkerEvent.engine ++
        [WorkerEvent.error "boom", WorkerEvent.finished] :=
  (worker_error_handling [] (some "boom")).2.2.1 "boom" rfl

/-! ## Claim C2 -/

lemma corrStep_fixed (S : Settings) (r : TokenRand) (st : EngineState) :
    (corrStep S r st).2.1 =
      if st.queue ≠ [] ∧ r.corrRoll ≤ S.correction_delay then st.queue.head? else none := by
  rcases hq : st.queue with _ | ⟨e, rest⟩
  · simp [corrStep, hq]
  · by_cases hc : r.corrRoll ≤ S.correction_delay <;> simp [corrStep, hq, hc]

lemma corrStep_queue (S : Settings) (r : TokenRand) (st : EngineState) :
    st.queue = (corrStep S r st).2.1.toList ++ (corrStep S r st).2.2 := by
  rcases hq : st.queue with _ | ⟨e, rest⟩
  · simp [corrStep, hq]
  · by_cases hc : r.corrRoll ≤ S.correction_delay <;> simp [corrStep, hq, hc]

lemma stepToken_queue_key (S : Settings) (C : Cadence) (r : TokenRand) (i n : ℕ)
    (w : List Char) (st : EngineState) :
    st.queue ++ (stepToken S C r i n w st).pushed.toList =
      (stepToken S C r i n w st).fixed.toList ++ (stepToken S C r i n w st).state.queue := by
  have h1 : (stepToken S C r i n w st).fixed = (corrStep S r st).2.1 := rfl
  have h2 : (stepToken S C r i n w st).pushed = (typeStep S r w st).2 := rfl
  have h3 : (stepToken S C r i n w st).state.queue =
      (corrStep S r st).2.2 ++ (typeStep S r w st).2.toList := rfl
  rw [h1, h2, h3, ← List.append_assoc, ← corrStep_queue]

lemma runLoop_queue_inv (S : Settings) (C : Cadence) (flag : ℕ → Bool) (R : ℕ → TokenRand)
    (n : ℕ) :
    ∀ (words : List (List Char)) (i : ℕ) (st : EngineState),
      st.queue ++ (runLoop S C flag R n words i st).pushes =
        (runLoop S C flag R n words i st).pops ++
          (runLoop S C flag R n words i st).state.queue := by
  intro words
  induction words with
  | nil =>
    intro i st
    simp [runLoop]
  | cons w rest ih =>
    intro i st
    by_cases hf : flag i = true
    · simp [runLoop, hf]
    · have hstep := stepToken_queue_key S C (R i) i n w st
      have hrec := ih (i + 1) (stepToken S C (R i) i n w st).state
      simp only [runLoop, hf, if_neg, Bool.false_eq_true, if_false]
      rw [← List.append_assoc, hstep, List.append_assoc, hrec, ← List.append_assoc]

/-- **C2**: the pending-error queue is consumed strictly FIFO.  A token's
correction pass pops exactly the head of the queue, and only when the
queue is non-empty and the roll passes (so at most one entry per token);
consequently, along any run of the main loop that starts with E1 queued before
E2, the queue obeys `initial ++ pushes = pops ++ final`, and if anything is
popped at all, the first pop is E1 — E1 is fixed before E2 can be fixed. -/
theorem pending_error_fifo :
    (∀ (S : Settings) (C : Cadence) (r : TokenRand) (i n : ℕ) (w : List Char)
      (st : EngineState),
      (stepToken S C r i n w st).fixed =
        if st.queue ≠ [] ∧ r.corrRoll ≤ S.correction_delay then st.queue.head? else none) ∧
    (∀ (S : Settings) (C : Cadence) (flag : ℕ → Bool) (R : ℕ → TokenRand) (n i pos : ℕ)
      (words : List (List Char)) (e1 e2 : PendingError) (qrest : List PendingError),
      (e1 :: e2 :: qrest) ++
          (runLoop S C flag R n words i ⟨pos, e1 :: e2 :: qrest⟩).pushes =
        (runLoop S C flag R n words i ⟨pos, e1 :: e2 :: qrest⟩).pops ++
          (runLoop S C flag R n words i ⟨pos, e1 :: e2 :: qrest⟩).state.queue ∧
      ((runLoop S C flag R n words i ⟨pos, e1 :: e2 :: qrest⟩).pops ≠ [] →
        (runLoop S C flag R n words i ⟨pos, e1 :: e2 :: qrest⟩).pops.head? = some e1)) := by
  constructor
  · intro S C r i n w st
    exact corrStep_fixed S r st
  · intro S C flag R n i pos words e1 e2 qrest
    have hinv := runLoop_queue_inv S C flag R n words i ⟨pos, e1 :: e2 :: qrest⟩
    refine ⟨hinv, ?_⟩
    intro hne
    rcases hp : (runLoop S C flag R n words i ⟨pos, e1 :: e2 :: qrest⟩).pops with _ | ⟨p, pt⟩
    · exact absurd hp hne
    · rw [hp] at hinv
      simp only [List.cons_append] at hinv
      rw [((List.cons.inj hinv).1).symm]
      rfl

/-- Witness for C2: one loop iteration on a non-alphabetic token with the
correction roll passing pops exactly the first of the two queued errors. -/
theorem pending_error_fifo_witness :
    (runLoop settingsCorr cadenceZero (fun _ => false) (fun _ => oracleA) 1 [['1']] 0
        ⟨0, [pendingX, pendingP]⟩).pops ≠ [] ∧
    (runLoop settingsCorr cadenceZero (fun _ => false) (fun _ => oracleA) 1 [['1']] 0
        ⟨0, [pendingX, pendingP]⟩).pops.head? = some pendingX :=
  ⟨by decide,
    (pending_error_fifo.2 settingsCorr cadenceZero (fun _ => false) (fun _ => oracleA)
      1 0 0 [['1']] pendingX pendingP []).2 (by decide)⟩

/-! ## Claim C10 -/

lemma getMistake_correct_eq (w : List Char) (r : TokenRand) (c : List Char)
    (h : (getMistake w r).2 = some c) : c = w := by
  unfold getMistake at h
  split at h
  · exact Option.noConfusion h
  · split at h <;> [skip; skip; skip; skip] <;>
      first
        | (exact (Option.some.inj h).symm)
        | (split at h
           · first
              | (exact (Option.some.inj h).symm)
              | (split at h
                 · exact (Option.some.inj h).symm
                 · exact Option.noConfusion h)
              | exact Option.noConfusion h
           · exact Option.noConfusion h)

/-- **C10**: after every token the engine advances the cursor offset by
`len(original token) + 1`, even when a mistake was generated and the emitted
incorrect text has a different length (omission emits one character fewer,
insertion one more), and the offset recorded in a `PendingError` is the
pre-token cursor offset with the original token as the correct text. -/
theorem cursor_advance_by_original_length :
    (∀ (S : Settings) (C : Cadence) (r : TokenRand) (i n : ℕ) (w : List Char)
      (st : EngineState),
      (stepToken S C r i n w st).state.pos = st.pos + w.length + 1) ∧
    (∀ (S : Settings) (C : Cadence) (r : TokenRand) (i n : ℕ) (w : List Char)
      (st : EngineState) (e : PendingError),
      (stepToken S C r i n w st).pushed = some e → e.pos = st.pos ∧ e.correct = w) ∧
    (∀ (w : List Char) (r : TokenRand), 3 ≤ w.length → pyIsAlphaList w = true →
      r.mIdx < w.length →
      (r.mkind = MistakeKind.omission →
        (getMistake w r).1.length + 1 = w.length ∧ (getMistake w r).2 = some w) ∧
      (r.mkind = MistakeKind.insertion →
        (getMistake w r).1.length = w.length + 1 ∧ (getMistake w r).2 = some w)) := by
  refine ⟨?_, ?_, ?_⟩
  · intro S C r i n w st
    rfl
  · intro S C r i n w st e h
    have hped : (stepToken S C r i n w st).pushed = (typeStep S r w st).2 := rfl
    rw [hped] at h
    unfold typeStep at h
    split at h
    · rcases hg : getMistake w r with ⟨inc, co⟩
      rw [hg] at h
      cases co with
      | some c =>
        simp only at h
        rw [← Option.some.inj h]
        refine ⟨rfl, ?_⟩
        exact getMistake_correct_eq w r c (by rw [hg])
      | none => exact Option.noConfusion h
    · exact Option.noConfusion h
  · intro w r h3 ha hi
    have hguard : ¬ (w.length < 3 ∨ pyIsAlphaList w = false) := by
      simp [ha]
      omega
    constructor
    · intro hk
      unfold getMistake
      rw [if_neg hguard, hk]
      refine ⟨?_, rfl⟩
      simp only [List.length_append, List.length_take, List.length_drop]
      omega
    · intro hk
      unfold getMistake
      rw [if_neg hguard, hk]
      refine ⟨?_, rfl⟩
      simp only [List.length_append, List.length_take, List.length_drop,
        List.length_cons, List.length_nil]
      omega

/-- Witness for C10: an omission mistake on "abc" emits 2 characters while the
original token has 3. -/
theorem cursor_advance_by_original_length_witness :
    3 ≤ (['a', 'b', 'c'] : List Char).length ∧ pyIsAlphaList ['a', 'b', 'c'] = true ∧
      oracleA.mIdx < (['a', 'b', 'c'] : List Char).length ∧
      ((getMistake ['a', 'b', 'c'] oracleA).1.length + 1 =
          (['a', 'b', 'c'] : List Char).length ∧
        (getMistake ['a', 'b', 'c'] oracleA).2 = some ['a', 'b', 'c']) :=
  ⟨by decide, by decide, by decide,
    (cursor_advance_by_original_length.2.2 ['a', 'b', 'c'] oracleA (by decide) (by decide)
      (by decide)).1 rfl⟩

/-! ## Claim C3 -/

lemma corrStep_event_cases (S : Settings) (r : TokenRand) (st : EngineState) :
    ∀ e ∈ (corrStep S r st).1,
      (∃ a, e = Event.act a) ∨ (∃ inc, e = Event.status (.fixing inc)) ∨
        e = Event.status .fixedNote := by
  intro e he
  rcases hq : st.queue with _ | ⟨q0, qr⟩
  · simp [corrStep, hq] at he
  · by_cases hc : r.corrRoll ≤ S.correction_delay
    · simp only [corrStep, hq, hc, if_true, List.mem_cons, List.mem_append,
        List.mem_map, List.mem_singleton, List.not_mem_nil, or_false] at he
      rcases he with he | ⟨⟨a, -, he⟩ | he⟩
      · exact Or.inr (Or.inl ⟨q0.incorrect, he⟩)
      · exact Or.inl ⟨a, he.symm⟩
      · exact Or.inr (Or.inr he)
    · simp [corrStep, hq, hc] at he

lemma thinkStep_event_cases (S : Settings) (r : TokenRand) :
    ∀ e ∈ thinkStep S r, e = Event.status .thinking ∨ ∃ a, e = Event.act a := by
  intro e he
  unfold thinkStep at he
  split at he
  · rcases List.mem_cons.mp he with h | h
    · exact Or.inl h
    · rcases List.mem_singleton.mp h with h
      exact Or.inr ⟨_, h⟩
  · exact absurd he (List.not_mem_nil e)

lemma typeStep_event_cases (S : Settings) (r : TokenRand) (w : List Char) (st : EngineState) :
    ∀ e ∈ (typeStep S r w st).1, ∃ a, e = Event.act a := by
  intro e he
  unfold typeStep at he
  split at he
  · rcases hg : getMistake w r with ⟨inc, co⟩
    rw [hg] at he
    cases co with
    | some c =>
      simp only [List.mem_map] at he
      rcases he with ⟨c', -, he⟩
      exact ⟨_, he.symm⟩
    | none =>
      simp only [List.mem_map] at he
      rcases he with ⟨c', -, he⟩
      exact ⟨_, he.symm⟩
  · simp only [List.mem_map] at he
    rcases he with ⟨c', -, he⟩
    exact ⟨_, he.symm⟩

lemma pauseStep_event_cases (S : Settings) (C : Cadence) (r : TokenRand) (w : List Char) :
    ∀ e ∈ pauseStep S C r w, e = Event.status .afk ∨ ∃ a, e = Event.act a := by
  intro e he
  unfold pauseStep at he
  split at he
  · split at he
    · rcases List.mem_cons.mp he with h | h
      · exact Or.inl h
      · exact Or.inr ⟨_, List.mem_singleton.mp h⟩
    · exact Or.inr ⟨_, List.mem_singleton.mp he⟩
  · split at he
    · exact Or.inr ⟨_, List.mem_singleton.mp he⟩
    · rcases List.mem_cons.mp he with h | h
      · exact Or.inr ⟨_, h⟩
      · exact Or.inr ⟨_, List.mem_singleton.mp h⟩

lemma stepToken_event_cases (S : Settings) (C : Cadence) (r : TokenRand) (i n : ℕ)
    (w : List Char) (st : EngineState) :
    ∀ e ∈ (stepToken S C r i n w st).events,
      (∃ a, e = Event.act a) ∨ (∃ inc, e = Event.status (.fixing inc)) ∨
        e = Event.status .fixedNote ∨ e = Event.status .thinking ∨
        e = Event.status .afk ∨ e = Event.progress (i * 100 / n) := by
  intro e he
  have hev : (stepToken S C r i n w st).events =
      (corrStep S r st).1 ++ thinkStep S r ++ (typeStep S r w st).1
        ++ [Event.progress (i * 100 / n)] ++ pauseStep S C r w := rfl
  rw [hev] at he
  simp only [List.mem_append, List.mem_singleton] at he
  rcases he with ((((h | h) | h) | h) | h)
  · rcases corrStep_event_cases S r st e h with h' | ⟨inc, h'⟩ | h'
    · exact Or.inl h'
    · exact Or.inr (Or.inl ⟨inc, h'⟩)
    · exact Or.inr (Or.inr (Or.inl h'))
  · rcases thinkStep_event_cases S r e h with h' | h'
    · exact Or.inr (Or.inr (Or.inr (Or.inl h')))
    · exact Or.inl h'
  · exact Or.inl (typeStep_event_cases S r w st e h)
  · exact Or.inr (Or.inr (Or.inr (Or.inr (Or.inr h))))
  · rcases pauseStep_event_cases S C r w e h with h' | h'
    · exact Or.inr (Or.inr (Or.inr (Or.inr (Or.inl h'))))
    · exact Or.inl h'

lemma stepToken_countP_progress (S : Settings) (C : Cadence) (r : TokenRand) (i n : ℕ)
    (w : List Char) (st : EngineState) :
    (stepToken S C r i n w st).events.countP isProgress = 1 := by
  have hev : (stepToken S C r i n w st).events =
      (corrStep S r st).1 ++ thinkStep S r ++ (typeStep S r w st).1
        ++ [Event.progress (i * 100 / n)] ++ pauseStep S C r w := rfl
  rw [hev, List.countP_append, List.countP_append, List.countP_append, List.countP_append]
  have h1 : (corrStep S r st).1.countP isProgress = 0 := by
    rw [List.countP_eq_zero]
    intro e he
    rcases corrStep_event_cases S r st e he with ⟨a, rfl⟩ | ⟨inc, rfl⟩ | rfl <;> simp [isProgress]
  have h2 : (thinkStep S r).countP isProgress = 0 := by
    rw [List.countP_eq_zero]
    intro e he
    rcases thinkStep_event_cases S r e he with rfl | ⟨a, rfl⟩ <;> simp [isProgress]
  have h3 : (typeStep S r w st).1.countP isProgress = 0 := by
    rw [List.countP_eq_zero]
    intro e he
    rcases typeStep_event_cases S r w st e he with ⟨a, rfl⟩
    simp [isProgress]
  have h4 : (pauseStep S C r w).countP isProgress = 0 := by
    rw [List.countP_eq_zero]
    intro e he
    rcases pauseStep_event_cases S C r w e he with rfl | ⟨a, rfl⟩ <;> simp [isProgress]
  rw [h1, h2, h3, h4]
  simp [isProgress]

lemma runLoop_no_terminal (S : Settings) (C : Cadence) (flag : ℕ → Bool) (R : ℕ → TokenRand)
    (n : ℕ) :
    ∀ (words : List (List Char)) (i : ℕ) (st : EngineState),
      Event.status .stoppedMsg ∉ (runLoop S C flag R n words i st).events ∧
      Event.status .finishedMsg ∉ (runLoop S C flag R n words i st).events := by
  intro words
  induction words with
  | nil =>
    intro i st
    simp [runLoop]
  | cons w rest ih =>
    intro i st
    by_cases hf : flag i = true
    · simp [runLoop, hf]
    · have hrec := ih (i + 1) (stepToken S C (R i) i n w st).state
      constructor
      · intro hmem
        simp only [runLoop, hf, Bool.false_eq_true, if_false, List.mem_append] at hmem
        rcases hmem with h | h
        · rcases stepToken_event_cases S C (R i) i n w st _ h with
            ⟨a, he⟩ | ⟨inc, he⟩ | he | he | he | he <;> simp at he
        · exact hrec.1 h
      · intro hmem
        simp only [runLoop, hf, Bool.false_eq_true, if_false, List.mem_append] at hmem
        rcases hmem with h | h
        · rcases stepToken_event_cases S C (R i) i n w st _ h with
            ⟨a, he⟩ | ⟨inc, he⟩ | he | he | he | he <;> simp at he
        · exact hrec.2 h

lemma runLoop_progress_lt (S : Settings) (C : Cadence) (flag : ℕ → Bool) (R : ℕ → TokenRand)
    (n : ℕ) (hn : 0 < n) :
    ∀ (words : List (List Char)) (i : ℕ) (st : EngineState), i + words.length ≤ n →
      ∀ p, Event.progress p ∈ (runLoop S C flag R n words i st).events → p < 100 := by
  intro words
  induction words with
  | nil =>
    intro i st _ p hp
    simp [runLoop] at hp
  | cons w rest ih =>
    intro i st hile p hp
    simp only [List.length_cons] at hile
    by_cases hf : flag i = true
    · simp [runLoop, hf] at hp
    · simp only [runLoop, hf, Bool.false_eq_true, if_false, List.mem_append] at hp
      rcases hp with h | h
      · rcases stepToken_event_cases S C (R i) i n w st _ h with
          ⟨a, he⟩ | ⟨inc, he⟩ | he | he | he | he
        · exact absurd he (by simp)
        · exact absurd he (by simp)
        · exact absurd he (by simp)
        · exact absurd he (by simp)
        · exact absurd he (by simp)
        · simp only [Event.progress.injEq] at he
          subst he
          rw [Nat.div_lt_iff_lt_mul hn]
          omega
      · exact ih (i + 1) _ (by omega) p h

lemma runLoop_countP_le (S : Settings) (C : Cadence) (flag : ℕ → Bool) (R : ℕ → TokenRand)
    (n : ℕ) :
    ∀ (words : List (List Char)) (j i : ℕ) (st : EngineState), flag (i + j) = true →
      (runLoop S C flag R n words i st).events.countP isProgress ≤ j := by
  intro words
  induction words with
  | nil =>
    intro j i st _
    simp [runLoop]
  | cons w rest ih =>
    intro j i st hflag
    by_cases hf : flag i = true
    · simp [runLoop, hf]
    · have hj : j ≠ 0 := by
        intro h0
        subst h0
        rw [Nat.add_zero] at hflag
        exact hf hflag
      obtain ⟨j', rfl⟩ : ∃ j', j = j' + 1 := ⟨j - 1, by omega⟩
      have hrec := ih j' (i + 1) (stepToken S C (R i) i n w st).state (by
        have heq : i + 1 + j' = i + (j' + 1) := by omega
        rw [heq]
        exact hflag)
      simp only [runLoop, hf, Bool.false_eq_true, if_false, List.countP_append]
      rw [stepToken_countP_progress]
      omega

lemma tokenize_length_pos (text : List Char) : 0 < (tokenize text).length := by
  rcases h : tokenize text with _ | ⟨t, ts⟩
  · exact absurd h (splitSpace_ne_nil (padNewlines text))
  · simp

lemma engineRun_events_of_stop (S : Settings) (text : List Char) (flag : ℕ → Bool)
    (R : ℕ → TokenRand) (hn : flag (tokenize text).length = true) :
    (engineRun S text flag R).events =
      [Event.status .starting, Event.act (Act.sleepF 5), Event.status .started]
        ++ (runLoop S (calculateDelays S text) flag R (tokenize text).length (tokenize text) 0
            ⟨0, []⟩).events
        ++ [Event.status .stoppedMsg] := by
  simp [engineRun, hn]

/-- **C3**: in every run in which a stop is requested and observable at a
loop-iteration boundary (the flag is monotone — once set it stays set — and is
set at some boundary of the run), the engine reports exactly one terminal
stopped status, never a finished status, never emits the 100% progress report,
and executes at most `j` loop iterations (each of which emits exactly one
progress event) when the flag is already set at boundary `j` — so no further
token begins after the stop is observed. -/
theorem stop_request_semantics (S : Settings) (text : List Char) (flag : ℕ → Bool)
    (R : ℕ → TokenRand)
    (hmono : ∀ a b : ℕ, a ≤ b → flag a = true → flag b = true)
    (hstop : ∃ k, k ≤ (tokenize text).length ∧ flag k = true) :
    (engineRun S text flag R).events.count (Event.status .stoppedMsg) = 1 ∧
    (engineRun S text flag R).events.count (Event.status .finishedMsg) = 0 ∧
    Event.progress 100 ∉ (engineRun S text flag R).events ∧
    (∀ j, flag j = true → (engineRun S text flag R).events.countP isProgress ≤ j) := by
  obtain ⟨k, hk, hfk⟩ := hstop
  have hn : flag (tokenize text).length = true := hmono k (tokenize text).length hk hfk
  have hev := engineRun_events_of_stop S text flag R hn
  have hnoterm := runLoop_no_terminal S (calculateDelays S text) flag R
    (tokenize text).length (tokenize text) 0 ⟨0, []⟩
  refine ⟨?_, ?_, ?_, ?_⟩
  · rw [hev, List.count_append, List.count_append]
    rw [List.count_eq_zero.mpr hnoterm.1]
    rfl
  · rw [hev, List.count_append, List.count_append]
    rw [List.count_eq_zero.mpr hnoterm.2]
    rfl
  · rw [hev]
    intro hmem
    simp only [List.mem_append, List.mem_cons, List.mem_singleton] at hmem
    rcases hmem with (h | h) | h
    · simp at h
    · exact absurd (runLoop_progress_lt S (calculateDelays S text) flag R
        (tokenize text).length (tokenize_length_pos text) (tokenize text) 0 ⟨0, []⟩
        (by omega) 100 h) (by omega)
    · simp at h
  · intro j hfj
    rw [hev, List.countP_append, List.countP_append]
    have hpre : ([Event.status .starting, Event.act (Act.sleepF 5),
        Event.status .started] : List Event).countP isProgress = 0 := rfl
    have hterm : ([Event.status .stoppedMsg] : List Event).countP isProgress = 0 := rfl
    rw [hpre, hterm]
    have := runLoop_countP_le S (calculateDelays S text) flag R (tokenize text).length
      (tokenize text) j 0 ⟨0, []⟩ (by simpa using hfj)
    omega

/-- Witness for C3: a run on the text "a" with the stop flag set from the
start emits exactly one stopped status. -/
theorem stop_request_semantics_witness :
    (engineRun settingsA ['a'] (fun _ => true)
        (fun _ => oracleA)).events.count (Event.status .stoppedMsg) = 1 :=
  (stop_request_semantics settingsA ['a'] (fun _ => true) (fun _ => oracleA)
    (fun _ _ _ h => h) ⟨0, Nat.zero_le _, rfl⟩).1

end GhostTyper
